import Mathlib

/-!
Verification of the cross-entropy-method CartPole notebook.

The embedding models the three logic-bearing pieces of the notebook:
the elite filter (filter_batch, built on the numpy linear-interpolation
percentile), the episode generator (iterate_batches, modelled as an
explicit step function on a generator state, driven by fuel), and the
training control loop.  Rewards are embedded as rationals; the policy
scorer together with its softmax normalisation is abstracted as a
function from observations to a probability list, and the stochastic
np.random.choice call is abstracted as a sampling function on that
probability list, exactly the points at which the notebook touches
external libraries.
-/

namespace CartPole

/-- EpisodeStep from the notebook: the observation seen and the action
taken at one step.  Actions are indices into the action set, as
returned by np.random.choice. -/
structure EpisodeStep (Obs : Type) where
  observation : Obs
  action : ℕ
deriving DecidableEq

/-- Episode from the notebook: total undiscounted reward and the list
of steps. -/
structure Episode (Obs : Type) where
  reward : ℚ
  steps : List (EpisodeStep Obs)
deriving DecidableEq

/-- Linear interpolation between order statistics of an already sorted
list, at the virtual index idx: the value numpy computes as
a[floor(idx)] + (idx - floor(idx)) * (a[floor(idx)+1] - a[floor(idx)]).
Out-of-range reads fall back to the last defined entry; an empty list
gives 0 (numpy raises there, and every use below is on a nonempty
list). -/
def interpSorted (sorted : List ℚ) (idx : ℚ) : ℚ :=
  let lo : ℕ := (⌊idx⌋).toNat
  let frac : ℚ := idx - (lo : ℚ)
  match sorted[lo]?, sorted[lo + 1]? with
  | some a, some b => a + frac * (b - a)
  | some a, none => a
  | none, _ => 0

/-- np.percentile with the default linear interpolation: sort the
values, take the virtual index q * (n - 1) / 100, and interpolate
linearly between the neighbouring order statistics. -/
def np_percentile (xs : List ℚ) (q : ℚ) : ℚ :=
  let sorted := List.insertionSort (fun a b : ℚ => a ≤ b) xs
  interpSorted sorted (q * ((sorted.length : ℚ) - 1) / 100)

/-- np.mean: the arithmetic mean (0 on the empty list, where numpy
would produce nan; every use below is on a nonempty list). -/
def np_mean (xs : List ℚ) : ℚ := xs.sum / (xs.length : ℚ)

/-- The accumulation loop of filter_batch: walk the batch in order,
skip an episode when its reward is strictly below the bound, and
otherwise append the observations and the actions of its steps to the
two training lists. -/
def collectElite {Obs : Type} (bound : ℚ) : List (Episode Obs) → List Obs × List ℕ
  | [] => ([], [])
  | ex :: rest =>
    let tail := collectElite bound rest
    if ex.reward < bound then tail
    else (ex.steps.map EpisodeStep.observation ++ tail.1,
          ex.steps.map EpisodeStep.action ++ tail.2)

/-- filter_batch from the notebook: compute the percentile bound and
the mean of the episode rewards, then keep the (observation, action)
pairs of the episodes whose reward is not strictly below the bound.
Returns (train_obs, train_act, reward_bound, reward_mean). -/
def filter_batch {Obs : Type} (batch : List (Episode Obs)) (percentile : ℚ) :
    List Obs × List ℕ × ℚ × ℚ :=
  let rewards := batch.map Episode.reward
  let reward_bound := np_percentile rewards percentile
  let reward_mean := np_mean rewards
  let t := collectElite reward_bound batch
  (t.1, t.2, reward_bound, reward_mean)

/-- The environment collaborator: reset and step as pure functions on
an explicit environment state.  step returns (next observation, reward,
done flag, next environment state), mirroring the gym interface used
by the notebook (the info dictionary is discarded there). -/
structure Env (σ Obs : Type) where
  reset : σ → Obs × σ
  step : σ → ℕ → Obs × ℚ × Bool × σ

/-- The mutable state of the iterate_batches loop: the environment
state, the current observation, the accumulated reward and steps of
the episode under construction, the batch under construction, and the
list of batches yielded so far. -/
structure GenState (σ Obs : Type) where
  envState : σ
  obs : Obs
  episode_reward : ℚ
  episode_steps : List (EpisodeStep Obs)
  batch : List (Episode Obs)
  emitted : List (List (Episode Obs))
deriving DecidableEq

/-- One pass through the body of the while loop of iterate_batches.
net_probs abstracts the composite softmax(net(obs)) producing the
action probabilities, and sample abstracts the np.random.choice draw
from those probabilities.  On done the completed episode is appended
to the batch, the per-episode accumulators are reset, the environment
is reset, and when the batch has reached batch_size episodes it is
yielded (appended to emitted) and a fresh batch is started. -/
def genStep {σ Obs : Type} (env : Env σ Obs) (net_probs : Obs → List ℚ)
    (sample : List ℚ → ℕ) (batch_size : ℕ) (s : GenState σ Obs) : GenState σ Obs :=
  let act_probs := net_probs s.obs
  let action := sample act_probs
  let r := env.step s.envState action
  let next_obs := r.1
  let reward := r.2.1
  let is_done := r.2.2.1
  let env1 := r.2.2.2
  let episode_reward := s.episode_reward + reward
  let episode_steps := s.episode_steps ++ [⟨s.obs, action⟩]
  if is_done then
    let batch := s.batch ++ [⟨episode_reward, episode_steps⟩]
    let r2 := env.reset env1
    if batch.length = batch_size then
      { envState := r2.2, obs := r2.1, episode_reward := 0, episode_steps := [],
        batch := [], emitted := s.emitted ++ [batch] }
    else
      { envState := r2.2, obs := r2.1, episode_reward := 0, episode_steps := [],
        batch := batch, emitted := s.emitted }
  else
    { envState := env1, obs := next_obs, episode_reward := episode_reward,
      episode_steps := episode_steps, batch := s.batch, emitted := s.emitted }

/-- The initialisation preceding the while loop of iterate_batches:
empty batch, zero episode reward, empty step list, first observation
from env.reset(). -/
def genInit {σ Obs : Type} (env : Env σ Obs) (e0 : σ) : GenState σ Obs :=
  let r := env.reset e0
  { envState := r.2, obs := r.1, episode_reward := 0, episode_steps := [],
    batch := [], emitted := [] }

/-- Run the loop body of iterate_batches a given number of times.  The
notebook loop is infinite; fuel makes any finite prefix of its
behaviour observable, emitted collecting the yielded batches in
order. -/
def genRun {σ Obs : Type} (env : Env σ Obs) (net_probs : Obs → List ℚ)
    (sample : List ℚ → ℕ) (batch_size : ℕ) : ℕ → GenState σ Obs → GenState σ Obs
  | 0, s => s
  | fuel + 1, s => genRun env net_probs sample batch_size fuel
      (genStep env net_probs sample batch_size s)

/-- The training loop of the main cell, consuming a finite prefix of
the generator output: for each batch, filter it, apply the opaque
optimiser update to the network on the elite observations and actions,
and stop (break) exactly when reward_mean exceeds 199.  Returns the
final network, the number of batches consumed, and whether the solved
break was taken. -/
def trainer_loop {Obs N : Type} (upd : N → List Obs → List ℕ → N) (percentile : ℚ) :
    N → List (List (Episode Obs)) → N × ℕ × Bool
  | net, [] => (net, 0, false)
  | net, batch :: rest =>
    let r := filter_batch batch percentile
    let net1 := upd net r.1 r.2.1
    if r.2.2.2 > 199 then (net1, 1, true)
    else
      let t := trainer_loop upd percentile net1 rest
      (t.1, t.2.1 + 1, t.2.2)

/-- An environment of the class used by claim C8: it terminates every
episode after exactly K steps, each step paying reward 1.0.  The
observations may evolve arbitrarily through an opaque internal state
of type iota; the environment state pairs that internal state with the
count of steps taken in the current episode. -/
def kStepEnv {ι Obs : Type} (K : ℕ) (resetObs : ι → Obs × ι)
    (stepObs : ι → ℕ → Obs × ι) : Env (ι × ℕ) Obs where
  reset := fun p => ((resetObs p.1).1, ((resetObs p.1).2, 0))
  step := fun p a => ((stepObs p.1 a).1, 1, decide (p.2 + 1 = K), ((stepObs p.1 a).2, p.2 + 1))

/-- The elite episodes of a batch at a given bound: exactly those
whose reward is at least the bound. -/
def eliteOf {Obs : Type} (bound : ℚ) (batch : List (Episode Obs)) : List (Episode Obs) :=
  batch.filter fun e => decide (bound ≤ e.reward)

/-- The accumulation loop of filter_batch produces exactly the
concatenated observations and actions of the episodes whose reward is
at least the bound, in batch order then step order. -/
theorem collectElite_eq {Obs : Type} (bound : ℚ) (batch : List (Episode Obs)) :
    collectElite bound batch =
      (((eliteOf bound batch).map fun e => e.steps.map EpisodeStep.observation).flatten,
       ((eliteOf bound batch).map fun e => e.steps.map EpisodeStep.action).flatten) := by
  induction batch with
  | nil => rfl
  | cons ex rest ih =>
    by_cases h : ex.reward < bound
    · have hb : ¬ bound ≤ ex.reward := not_le.mpr h
      simp [collectElite, eliteOf, List.filter_cons, h, hb, ih]
    · have hb : bound ≤ ex.reward := not_lt.mp h
      simp [collectElite, eliteOf, List.filter_cons, h, hb, ih]

/-- C1.  The training sequences returned by filter_batch consist of
exactly the (observation, action) steps of the episodes whose total
reward is greater than or equal to reward_bound: episodes with reward
strictly below the bound contribute nothing, and episodes whose reward
equals the bound are included, since the source skips an episode
precisely when reward < reward_bound. -/
theorem filter_batch_selects_reward_ge_bound {Obs : Type}
    (batch : List (Episode Obs)) (p : ℚ) :
    (filter_batch batch p).1 =
      ((eliteOf (np_percentile (batch.map Episode.reward) p) batch).map
        fun e => e.steps.map EpisodeStep.observation).flatten ∧
    (filter_batch batch p).2.1 =
      ((eliteOf (np_percentile (batch.map Episode.reward) p) batch).map
        fun e => e.steps.map EpisodeStep.action).flatten ∧
    ∀ e ∈ batch,
      (e ∈ eliteOf (np_percentile (batch.map Episode.reward) p) batch ↔
        np_percentile (batch.map Episode.reward) p ≤ e.reward) := by
  refine ⟨?_, ?_, ?_⟩
  · simp [filter_batch, collectElite_eq]
  · simp [filter_batch, collectElite_eq]
  · intro e he
    simp [eliteOf, List.mem_filter, he]

/-- C2.  The observation and action sequences returned by filter_batch
have equal length, that length is at most the total number of steps in
the batch, and the two sequences are the concatenation, in batch order
then per-episode step order, of the steps of the elite episodes. -/
theorem filter_batch_training_set_shape {Obs : Type}
    (batch : List (Episode Obs)) (p : ℚ) :
    (filter_batch batch p).1.length = (filter_batch batch p).2.1.length ∧
    (filter_batch batch p).1.length ≤ (batch.map fun e => e.steps.length).sum ∧
    (filter_batch batch p).1 =
      ((eliteOf (np_percentile (batch.map Episode.reward) p) batch).map
        fun e => e.steps.map EpisodeStep.observation).flatten ∧
    (filter_batch batch p).2.1 =
      ((eliteOf (np_percentile (batch.map Episode.reward) p) batch).map
        fun e => e.steps.map EpisodeStep.action).flatten := by
  refine ⟨?_, ?_, ?_, ?_⟩
  · simp [filter_batch, collectElite_eq, List.length_flatten, List.map_map,
      Function.comp_def, List.length_map]
  · have hsub : ((eliteOf (np_percentile (batch.map Episode.reward) p) batch).map
        fun e => e.steps.length).Sublist (batch.map fun e => e.steps.length) :=
      List.Sublist.map _ (List.filter_sublist batch)
    have hle := List.Sublist.sum_le_sum hsub (fun a _ => Nat.zero_le a)
    simpa [filter_batch, collectElite_eq, List.length_flatten, List.map_map,
      Function.comp_def, List.length_map] using hle
  · simp [filter_batch, collectElite_eq]
  · simp [filter_batch, collectElite_eq]

/-- The three-episode test batch of the spec: rewards 10, 20 and 30,
with one step each, observation and action tagged by the episode
index. -/
def batch3 : List (Episode ℕ) :=
  [⟨10, [⟨0, 0⟩]⟩, ⟨20, [⟨1, 1⟩]⟩, ⟨30, [⟨2, 2⟩]⟩]

/-- C4.  On the batch with rewards [10, 20, 30] at percentile 70, the
linear interpolation between order statistics gives reward_bound
exactly 24 (virtual index 1.4, so 20 + 0.4 * (30 - 20)), reward_mean
is 20, and only the reward-30 episode is elite: the returned training
sequences hold exactly its single step, the reward-20 episode being
excluded since 20 < 24. -/
theorem filter_batch_example_batch3 :
    filter_batch batch3 70 = ([2], [2], 24, 20) := by
  norm_num [filter_batch, batch3, np_percentile, np_mean, interpSorted,
    collectElite, List.insertionSort, List.orderedInsert]

/-- If the trainer loop consumed no batch, the solved flag is false:
the loop can only break after processing a batch. -/
theorem trainer_loop_zero_count {Obs N : Type} (upd : N → List Obs → List ℕ → N)
    (p : ℚ) (net : N) (l : List (List (Episode Obs)))
    (h : (trainer_loop upd p net l).2.1 = 0) :
    (trainer_loop upd p net l).2.2 = false := by
  cases l with
  | nil => rfl
  | cons batch rest =>
    exfalso
    revert h
    simp only [trainer_loop]
    split
    · simp
    · simp

/-- C5.  After the parameter update on a batch, the training loop is
terminal (solved, consuming exactly that one batch and pulling no
further batch) if and only if the reward_mean of the batch exceeds
199; when reward_mean is at most 199 the loop performs the update and
continues into the remaining batches, consuming one more than the
continuation does. -/
theorem trainer_loop_solved_iff {Obs N : Type} (upd : N → List Obs → List ℕ → N)
    (p : ℚ) (net : N) (batch : List (Episode Obs))
    (rest : List (List (Episode Obs))) :
    ((trainer_loop upd p net (batch :: rest)).2 = (1, true) ↔
      (filter_batch batch p).2.2.2 > 199) ∧
    ((filter_batch batch p).2.2.2 > 199 →
      trainer_loop upd p net (batch :: rest) =
        (upd net (filter_batch batch p).1 (filter_batch batch p).2.1, 1, true)) ∧
    ((filter_batch batch p).2.2.2 ≤ 199 →
      trainer_loop upd p net (batch :: rest) =
        ((trainer_loop upd p (upd net (filter_batch batch p).1 (filter_batch batch p).2.1) rest).1,
         (trainer_loop upd p (upd net (filter_batch batch p).1 (filter_batch batch p).2.1) rest).2.1 + 1,
         (trainer_loop upd p (upd net (filter_batch batch p).1 (filter_batch batch p).2.1) rest).2.2)) := by
  by_cases h : (filter_batch batch p).2.2.2 > 199
  · refine ⟨?_, ?_, ?_⟩
    · simp [trainer_loop, h]
    · intro _
      simp [trainer_loop, h]
    · intro h2
      exact absurd h (not_lt.mpr h2)
  · refine ⟨?_, ?_, ?_⟩
    · constructor
      · intro heq
        exfalso
        simp only [trainer_loop, h, if_false, Prod.mk.injEq] at heq
        obtain ⟨h1, h2⟩ := heq
        have h0 : (trainer_loop upd p
            (upd net (filter_batch batch p).1 (filter_batch batch p).2.1) rest).2.1 = 0 := by
          omega
        have hz := trainer_loop_zero_count upd p
          (upd net (filter_batch batch p).1 (filter_batch batch p).2.1) rest h0
        rw [hz] at h2
        exact Bool.false_ne_true h2
      · intro hgt
        exact absurd hgt h
    · intro hgt
      exact absurd hgt h
    · intro _
      simp [trainer_loop, h]

/-- Entries of a list sorted by the non-strict order are monotone in
the index, in optional-lookup form. -/
theorem sorted_getElem?_mono {l : List ℚ} (hs : List.Sorted (fun a b : ℚ => a ≤ b) l)
    {i j : ℕ} {a b : ℚ} (hij : i ≤ j) (ha : l[i]? = some a) (hb : l[j]? = some b) :
    a ≤ b := by
  obtain ⟨hi, rfl⟩ := List.getElem?_eq_some.mp ha
  obtain ⟨hj, rfl⟩ := List.getElem?_eq_some.mp hb
  have := hs.rel_get_of_le (a := (⟨i, hi⟩ : Fin l.length)) (b := (⟨j, hj⟩ : Fin l.length))
    (by simpa using hij)
  simpa using this

/-- Every member of a list sorted by the non-strict order is at most
its last element. -/
theorem sorted_le_getLast {l : List ℚ} (hs : List.Sorted (fun a b : ℚ => a ≤ b) l)
    (hne : l ≠ []) : ∀ x ∈ l, x ≤ l.getLast hne := by
  intro x hx
  obtain ⟨i, hi, rfl⟩ := List.mem_iff_getElem.mp hx
  rw [List.getLast_eq_getElem]
  exact sorted_getElem?_mono hs (by omega) (List.getElem?_eq_getElem hi)
    (List.getElem?_eq_getElem (by omega))

/-- Every member of a list sorted by the non-strict order is at least
its head. -/
theorem sorted_head_le {l : List ℚ} (hs : List.Sorted (fun a b : ℚ => a ≤ b) l)
    (hne : l ≠ []) : ∀ x ∈ l, l.head hne ≤ x := by
  intro x hx
  obtain ⟨i, hi, rfl⟩ := List.mem_iff_getElem.mp hx
  rw [List.head_eq_getElem]
  exact sorted_getElem?_mono hs (Nat.zero_le i)
    (List.getElem?_eq_getElem (by omega)) (List.getElem?_eq_getElem hi)

/-- On a sorted list, linear interpolation at a virtual index between
0 and length - 1 lands between two members of the list. -/
theorem interpSorted_bounds {l : List ℚ} (hs : List.Sorted (fun a b : ℚ => a ≤ b) l)
    {idx : ℚ} (h0 : 0 ≤ idx) (h1 : idx ≤ (l.length : ℚ) - 1) :
    ∃ a ∈ l, ∃ b ∈ l, a ≤ interpSorted l idx ∧ interpSorted l idx ≤ b := by
  have hne : l ≠ [] := by
    intro he
    rw [he] at h1
    norm_num at h1
    linarith
  have hfl0 : (0 : ℤ) ≤ ⌊idx⌋ := Int.floor_nonneg.mpr h0
  have hcast : ((⌊idx⌋.toNat : ℕ) : ℚ) = ((⌊idx⌋ : ℤ) : ℚ) := by
    exact_mod_cast congrArg (fun z : ℤ => (z : ℚ)) (Int.toNat_of_nonneg hfl0)
  have hflo : ⌊idx⌋ ≤ (l.length : ℤ) - 1 := by
    have h2 : ⌊idx⌋ ≤ ⌊(l.length : ℚ) - 1⌋ := Int.floor_le_floor h1
    have h3 : ((l.length : ℚ) - 1) = (((l.length : ℤ) - 1 : ℤ) : ℚ) := by push_cast; ring
    rw [h3, Int.floor_intCast] at h2
    exact h2
  have hlenpos : 0 < l.length := List.length_pos.mpr hne
  have hlo : ⌊idx⌋.toNat < l.length := by omega
  have hfrac0 : 0 ≤ idx - ((⌊idx⌋.toNat : ℕ) : ℚ) := by
    rw [hcast]
    have := Int.floor_le idx
    linarith
  have hfrac1 : idx - ((⌊idx⌋.toNat : ℕ) : ℚ) ≤ 1 := by
    rw [hcast]
    have := Int.lt_floor_add_one idx
    linarith
  simp only [interpSorted]
  rw [List.getElem?_eq_getElem hlo]
  cases hb : l[⌊idx⌋.toNat + 1]? with
  | none =>
    exact ⟨l[⌊idx⌋.toNat], List.getElem_mem hlo, l[⌊idx⌋.toNat], List.getElem_mem hlo,
      le_refl _, le_refl _⟩
  | some b =>
    have hbmem : b ∈ l := by
      obtain ⟨hj, rfl⟩ := List.getElem?_eq_some.mp hb
      exact List.getElem_mem hj
    have hab : l[⌊idx⌋.toNat] ≤ b :=
      sorted_getElem?_mono hs (Nat.le_succ _) (List.getElem?_eq_getElem hlo) hb
    refine ⟨l[⌊idx⌋.toNat], List.getElem_mem hlo, b, hbmem, ?_, ?_⟩
    · have := mul_nonneg hfrac0 (sub_nonneg.mpr hab)
      simp only
      linarith
    · have := mul_le_of_le_one_left (sub_nonneg.mpr hab) hfrac1
      simp only
      linarith

/-- Linear interpolation at virtual index length - 1 returns the last
element of the list. -/
theorem interpSorted_last {l : List ℚ} (hne : l ≠ []) :
    interpSorted l ((l.length : ℚ) - 1) = l.getLast hne := by
  have hlen : 1 ≤ l.length := List.length_pos.mpr hne
  have hfloor : ⌊(l.length : ℚ) - 1⌋ = (l.length : ℤ) - 1 := by
    rw [show ((l.length : ℚ) - 1) = (((l.length : ℤ) - 1 : ℤ) : ℚ) by push_cast; ring,
      Int.floor_intCast]
  have hlo : ⌊(l.length : ℚ) - 1⌋.toNat = l.length - 1 := by omega
  have hfrac : ((l.length : ℚ) - 1) - ((⌊(l.length : ℚ) - 1⌋.toNat : ℕ) : ℚ) = 0 := by
    rw [hlo]
    push_cast [Nat.cast_sub hlen]
    ring
  have hnone : l[⌊(l.length : ℚ) - 1⌋.toNat + 1]? = none := by
    apply List.getElem?_eq_none
    omega
  have hidx : ⌊(l.length : ℚ) - 1⌋.toNat < l.length := by omega
  simp only [interpSorted, hnone, List.getElem?_eq_getElem hidx, hfrac,
    List.getLast_eq_getElem, hlo]
  rw [List.getElem?_eq_getElem (show l.length - 1 < l.length by omega),
    List.getElem?_eq_none (show l.length ≤ l.length - 1 + 1 by omega)]

/-- Linear interpolation at virtual index 0 returns the head of the
list. -/
theorem interpSorted_head {l : List ℚ} (hne : l ≠ []) :
    interpSorted l 0 = l.head hne := by
  have hlen : 1 ≤ l.length := List.length_pos.mpr hne
  have hfloor : ⌊(0 : ℚ)⌋ = 0 := by norm_num
  have hidx : ⌊(0 : ℚ)⌋.toNat < l.length := by omega
  rw [List.head_eq_getElem]
  simp only [interpSorted, hfloor, Int.toNat_zero]
  rw [List.getElem?_eq_getElem (show 0 < l.length by omega)]
  cases hb : l[0 + 1]? with
  | none => rfl
  | some b => norm_num

/-- np.percentile at 100 on a nonempty list is its maximum: a member
bounding every value from above. -/
theorem np_percentile_hundred {xs : List ℚ} (hne : xs ≠ []) :
    np_percentile xs 100 ∈ xs ∧ ∀ x ∈ xs, x ≤ np_percentile xs 100 := by
  have hperm := List.perm_insertionSort (fun a b : ℚ => a ≤ b) xs
  have hsne : List.insertionSort (fun a b : ℚ => a ≤ b) xs ≠ [] := by
    intro he
    apply hne
    have hl := hperm.length_eq
    rw [he] at hl
    exact List.eq_nil_of_length_eq_zero hl.symm
  have hsorted := List.sorted_insertionSort (fun a b : ℚ => a ≤ b) xs
  have hval : np_percentile xs 100 =
      (List.insertionSort (fun a b : ℚ => a ≤ b) xs).getLast hsne := by
    rw [np_percentile, mul_div_cancel_left₀ _ (by norm_num : (100 : ℚ) ≠ 0),
      interpSorted_last hsne]
  constructor
  · rw [hval]
    exact hperm.mem_iff.mp (List.getLast_mem hsne)
  · intro x hx
    rw [hval]
    exact sorted_le_getLast hsorted hsne x (hperm.mem_iff.mpr hx)

/-- np.percentile at 0 on a nonempty list is its minimum: a member
bounding every value from below. -/
theorem np_percentile_zero {xs : List ℚ} (hne : xs ≠ []) :
    np_percentile xs 0 ∈ xs ∧ ∀ x ∈ xs, np_percentile xs 0 ≤ x := by
  have hperm := List.perm_insertionSort (fun a b : ℚ => a ≤ b) xs
  have hsne : List.insertionSort (fun a b : ℚ => a ≤ b) xs ≠ [] := by
    intro he
    apply hne
    have hl := hperm.length_eq
    rw [he] at hl
    exact List.eq_nil_of_length_eq_zero hl.symm
  have hsorted := List.sorted_insertionSort (fun a b : ℚ => a ≤ b) xs
  have hval : np_percentile xs 0 =
      (List.insertionSort (fun a b : ℚ => a ≤ b) xs).head hsne := by
    rw [np_percentile, zero_mul, zero_div, interpSorted_head hsne]
  constructor
  · rw [hval]
    exact hperm.mem_iff.mp (List.head_mem hsne)
  · intro x hx
    rw [hval]
    exact sorted_head_le hsorted hsne x (hperm.mem_iff.mpr hx)

/-- np.percentile of a nonempty list, at any percentile between 0 and
100, lies between two members of the list (hence between its minimum
and its maximum). -/
theorem np_percentile_between {xs : List ℚ} {q : ℚ} (hne : xs ≠ [])
    (h0 : 0 ≤ q) (h1 : q ≤ 100) :
    ∃ a ∈ xs, ∃ b ∈ xs, a ≤ np_percentile xs q ∧ np_percentile xs q ≤ b := by
  have hperm := List.perm_insertionSort (fun a b : ℚ => a ≤ b) xs
  have hsne : List.insertionSort (fun a b : ℚ => a ≤ b) xs ≠ [] := by
    intro he
    apply hne
    have hl := hperm.length_eq
    rw [he] at hl
    exact List.eq_nil_of_length_eq_zero hl.symm
  have hsorted := List.sorted_insertionSort (fun a b : ℚ => a ≤ b) xs
  have hlen1 : 1 ≤ (List.insertionSort (fun a b : ℚ => a ≤ b) xs).length :=
    List.length_pos.mpr hsne
  have hs1 : (0 : ℚ) ≤ ((List.insertionSort (fun a b : ℚ => a ≤ b) xs).length : ℚ) - 1 := by
    have : (1 : ℚ) ≤ ((List.insertionSort (fun a b : ℚ => a ≤ b) xs).length : ℚ) := by
      exact_mod_cast hlen1
    linarith
  have hidx0 : 0 ≤ q * (((List.insertionSort (fun a b : ℚ => a ≤ b) xs).length : ℚ) - 1) / 100 :=
    div_nonneg (mul_nonneg h0 hs1) (by norm_num)
  have hidx1 : q * (((List.insertionSort (fun a b : ℚ => a ≤ b) xs).length : ℚ) - 1) / 100 ≤
      ((List.insertionSort (fun a b : ℚ => a ≤ b) xs).length : ℚ) - 1 := by
    rw [div_le_iff₀ (by norm_num : (0 : ℚ) < 100)]
    have := mul_le_mul_of_nonneg_right h1 hs1
    linarith
  obtain ⟨a, ha, b, hb, hab⟩ := interpSorted_bounds hsorted hidx0 hidx1
  exact ⟨a, hperm.mem_iff.mp ha, b, hperm.mem_iff.mp hb, hab⟩

/-- C3.  For a nonempty batch, the reward_bound computed by
filter_batch at percentile 100 is the maximum episode reward (a member
of the reward list that bounds every reward from above), and at
percentile 0 it is the minimum (a member bounding every reward from
below). -/
theorem filter_batch_percentile_extremes {Obs : Type}
    (batch : List (Episode Obs)) (hne : batch ≠ []) :
    ((filter_batch batch 100).2.2.1 ∈ batch.map Episode.reward ∧
      ∀ r ∈ batch.map Episode.reward, r ≤ (filter_batch batch 100).2.2.1) ∧
    ((filter_batch batch 0).2.2.1 ∈ batch.map Episode.reward ∧
      ∀ r ∈ batch.map Episode.reward, (filter_batch batch 0).2.2.1 ≤ r) := by
  have hrne : batch.map Episode.reward ≠ [] := by
    simpa using hne
  have hb100 : (filter_batch batch 100).2.2.1 =
      np_percentile (batch.map Episode.reward) 100 := by
    simp [filter_batch]
  have hb0 : (filter_batch batch 0).2.2.1 =
      np_percentile (batch.map Episode.reward) 0 := by
    simp [filter_batch]
  rw [hb100, hb0]
  exact ⟨np_percentile_hundred hrne, np_percentile_zero hrne⟩

/-- Witness for C3 on the concrete three-episode batch with rewards
10, 20 and 30. -/
theorem filter_batch_percentile_extremes_witness :
    batch3 ≠ [] ∧
    (((filter_batch batch3 100).2.2.1 ∈ batch3.map Episode.reward ∧
      ∀ r ∈ batch3.map Episode.reward, r ≤ (filter_batch batch3 100).2.2.1) ∧
     ((filter_batch batch3 0).2.2.1 ∈ batch3.map Episode.reward ∧
      ∀ r ∈ batch3.map Episode.reward, (filter_batch batch3 0).2.2.1 ≤ r)) :=
  ⟨by simp [batch3], filter_batch_percentile_extremes batch3 (by simp [batch3])⟩

/-- Witness for C5: a single one-episode batch with reward 231 has
reward_mean 231 > 199, and the loop stops solved after exactly that
batch. -/
theorem trainer_loop_solved_iff_witness :
    (filter_batch [(⟨231, [⟨0, 1⟩]⟩ : Episode ℕ)] 70).2.2.2 > 199 ∧
    (trainer_loop (fun (n : ℕ) _ _ => n + 1) 70 0
      [[(⟨231, [⟨0, 1⟩]⟩ : Episode ℕ)]]).2 = (1, true) := by
  have hm : (filter_batch [(⟨231, [⟨0, 1⟩]⟩ : Episode ℕ)] 70).2.2.2 = 231 := by
    norm_num [filter_batch, np_mean]
  refine ⟨by rw [hm]; norm_num, ?_⟩
  exact (trainer_loop_solved_iff (fun (n : ℕ) _ _ => n + 1) 70 0
    [(⟨231, [⟨0, 1⟩]⟩ : Episode ℕ)] []).1.mpr (by rw [hm]; norm_num)

/-- Counterexample for C6.  On a batch whose single episode has reward
0 and no steps, filter_batch returns empty training sequences, yet the
training loop raises nothing: it performs the parameter update on the
empty data (the update counter advances to 1) and simply continues;
the source contains no "no training examples" check of any kind. -/
theorem filter_batch_empty_training_no_error :
    filter_batch [(⟨0, []⟩ : Episode ℕ)] 70 = ([], [], 0, 0) ∧
    trainer_loop (fun (n : ℕ) _ _ => n + 1) 70 0 [[(⟨0, []⟩ : Episode ℕ)]] =
      (1, 1, false) := by
  have hf : filter_batch [(⟨0, []⟩ : Episode ℕ)] 70 = ([], [], 0, 0) := by
    norm_num [filter_batch, np_mean, np_percentile, interpSorted, collectElite,
      List.insertionSort, List.orderedInsert]
  refine ⟨hf, ?_⟩
  simp [trainer_loop, hf]

/-- For the counting update, the final counter equals the number of
consumed batches: the loop applies the parameter update once per
consumed batch, unconditionally, with no guard on the training data
being nonempty. -/
theorem trainer_loop_counts_updates {Obs : Type} (p : ℚ)
    (batches : List (List (Episode Obs))) : ∀ n : ℕ,
    (trainer_loop (fun (k : ℕ) _ _ => k + 1) p n batches).1 =
      n + (trainer_loop (fun (k : ℕ) _ _ => k + 1) p n batches).2.1 := by
  induction batches with
  | nil => intro n; simp [trainer_loop]
  | cons batch rest ih =>
    intro n
    by_cases h : (filter_batch batch p).2.2.2 > 199
    · simp [trainer_loop, h]
    · simp only [trainer_loop, h, if_false]
      have := ih (n + 1)
      omega

/-- C6 amended.  The code raises no error on empty training data: for
every percentile in [0, 100] and nonempty batch at least one episode
is always elite (the bound never exceeds the maximum reward), so zero
elite episodes are unreachable, and the loop performs exactly one
unguarded parameter update per consumed batch whatever the training
sequences contain. -/
theorem elite_nonempty_and_update_unguarded {Obs : Type} (p : ℚ) :
    (∀ batch : List (Episode Obs), batch ≠ [] → 0 ≤ p → p ≤ 100 →
      ∃ e ∈ batch, (filter_batch batch p).2.2.1 ≤ e.reward) ∧
    (∀ batches : List (List (Episode Obs)), ∀ n : ℕ,
      (trainer_loop (fun (k : ℕ) _ _ => k + 1) p n batches).1 =
        n + (trainer_loop (fun (k : ℕ) _ _ => k + 1) p n batches).2.1) := by
  constructor
  · intro batch hne h0 h1
    have hrne : batch.map Episode.reward ≠ [] := by simpa using hne
    have hb : (filter_batch batch p).2.2.1 =
        np_percentile (batch.map Episode.reward) p := by
      simp [filter_batch]
    obtain ⟨a, _, c, hc, _, h2⟩ := np_percentile_between hrne h0 h1
    obtain ⟨e, he, rfl⟩ := List.mem_map.mp hc
    exact ⟨e, he, hb ▸ h2⟩
  · exact fun batches n => trainer_loop_counts_updates p batches n

/-- Witness for the amended C6 at percentile 70, on the three-episode
batch and on a singleton batch list. -/
theorem elite_nonempty_and_update_unguarded_witness :
    (batch3 ≠ [] ∧ (0 : ℚ) ≤ 70 ∧ (70 : ℚ) ≤ 100 ∧
      ∃ e ∈ batch3, (filter_batch batch3 70).2.2.1 ≤ e.reward) ∧
    (trainer_loop (fun (k : ℕ) _ _ => k + 1) 70 0 [batch3]).1 =
      0 + (trainer_loop (fun (k : ℕ) _ _ => k + 1) 70 0 [batch3]).2.1 :=
  ⟨⟨by simp [batch3], by norm_num, by norm_num,
      (elite_nonempty_and_update_unguarded 70).1 batch3 (by simp [batch3])
        (by norm_num) (by norm_num)⟩,
   (elite_nonempty_and_update_unguarded 70).2 [batch3] 0⟩

/-- Fuel induction: a predicate preserved by one loop pass is
preserved by any run of the generator loop. -/
theorem genRun_inv {σ Obs : Type} (P : GenState σ Obs → Prop) (env : Env σ Obs)
    (net_probs : Obs → List ℚ) (sample : List ℚ → ℕ) (batch_size : ℕ)
    (hstep : ∀ s, P s → P (genStep env net_probs sample batch_size s)) :
    ∀ fuel : ℕ, ∀ s, P s → P (genRun env net_probs sample batch_size fuel s) := by
  intro fuel
  induction fuel with
  | zero => exact fun s h => h
  | succ n ih => exact fun s h => ih _ (hstep s h)

/-- Shape invariant of the generator state: every episode closed so
far has at least one step, and every yielded batch is nonempty and
made of such episodes. -/
def GoodShape {σ Obs : Type} (s : GenState σ Obs) : Prop :=
  (∀ ep ∈ s.batch, ep.steps ≠ []) ∧
  ∀ b ∈ s.emitted, b ≠ [] ∧ ∀ ep ∈ b, ep.steps ≠ []

/-- One pass of the loop preserves the shape invariant: an episode is
only closed immediately after a step was appended to it, and a batch
is only yielded immediately after an episode was appended to it. -/
theorem goodShape_genStep {σ Obs : Type} (env : Env σ Obs)
    (net_probs : Obs → List ℚ) (sample : List ℚ → ℕ) (batch_size : ℕ)
    (s : GenState σ Obs) (h : GoodShape s) :
    GoodShape (genStep env net_probs sample batch_size s) := by
  obtain ⟨hbatch, hemit⟩ := h
  simp only [genStep]
  split
  · split
    · refine ⟨by simp, ?_⟩
      intro b hb
      simp only [List.mem_append, List.mem_singleton] at hb
      rcases hb with hb | hb
      · exact hemit b hb
      · subst hb
        refine ⟨by simp, ?_⟩
        intro ep hep
        simp only [List.mem_append, List.mem_singleton] at hep
        rcases hep with hep | hep
        · exact hbatch ep hep
        · subst hep
          simp
    · refine ⟨?_, hemit⟩
      intro ep hep
      simp only [List.mem_append, List.mem_singleton] at hep
      rcases hep with hep | hep
      · exact hbatch ep hep
      · subst hep
        simp
  · exact ⟨hbatch, hemit⟩

/-- C9.  With the stochastic np.random.choice replaced by a
deterministic sampling function, the generator is a pure function:
two runs against the same environment with identical policy scorer
parameters (identical action-probability functions) and the same
sampling rule produce identical generator states, in particular
identical sequences of emitted batches with the same episodes,
rewards and steps in the same order. -/
theorem iterate_batches_deterministic {σ Obs : Type} (env : Env σ Obs)
    (net_probs1 net_probs2 : Obs → List ℚ) (sample1 sample2 : List ℚ → ℕ)
    (batch_size fuel : ℕ) (e0 : σ)
    (hnet : net_probs1 = net_probs2) (hsample : sample1 = sample2) :
    genRun env net_probs1 sample1 batch_size fuel (genInit env e0) =
      genRun env net_probs2 sample2 batch_size fuel (genInit env e0) := by
  subst hnet
  subst hsample
  rfl

/-- Witness for C9 at a concrete unit environment. -/
theorem iterate_batches_deterministic_witness :
    (fun _ : Unit => [(1 : ℚ)]) = (fun _ : Unit => [(1 : ℚ)]) ∧
    (fun _ : List ℚ => 0) = (fun _ : List ℚ => 0) ∧
    genRun ⟨fun _ => ((), ()), fun _ _ => ((), 1, true, ())⟩
        (fun _ : Unit => [(1 : ℚ)]) (fun _ => 0) 1 3
        (genInit ⟨fun _ => ((), ()), fun _ _ => ((), 1, true, ())⟩ ()) =
      genRun ⟨fun _ => ((), ()), fun _ _ => ((), 1, true, ())⟩
        (fun _ : Unit => [(1 : ℚ)]) (fun _ => 0) 1 3
        (genInit ⟨fun _ => ((), ()), fun _ _ => ((), 1, true, ())⟩ ()) :=
  ⟨rfl, rfl,
    iterate_batches_deterministic ⟨fun _ => ((), ()), fun _ _ => ((), 1, true, ())⟩
      (fun _ => [(1 : ℚ)]) (fun _ => [(1 : ℚ)]) (fun _ => 0) (fun _ => 0) 1 3 () rfl rfl⟩

/-- C10.  On any batch yielded by the generator, every episode has at
least one step (the done flag is only inspected after a step has been
appended), and for any percentile in [0, 100] the reward_bound of
filter_batch lies between two member rewards of the batch — hence
between the minimum and the maximum — so some episode (in particular a
maximum-reward one) is elite and the returned training sequences are
nonempty: the zero-elite degenerate case is unreachable on
generator-produced batches. -/
theorem generator_batches_filter_nonempty {σ Obs : Type} (env : Env σ Obs)
    (net_probs : Obs → List ℚ) (sample : List ℚ → ℕ) (batch_size fuel : ℕ)
    (e0 : σ) {p : ℚ} (h0 : 0 ≤ p) (h1 : p ≤ 100) :
    ∀ b ∈ (genRun env net_probs sample batch_size fuel (genInit env e0)).emitted,
      (∀ ep ∈ b, ep.steps ≠ []) ∧
      (∃ a ∈ b.map Episode.reward, a ≤ (filter_batch b p).2.2.1) ∧
      (∃ c ∈ b.map Episode.reward, (filter_batch b p).2.2.1 ≤ c) ∧
      (∃ e ∈ b, (filter_batch b p).2.2.1 ≤ e.reward) ∧
      (filter_batch b p).1 ≠ [] ∧ (filter_batch b p).2.1 ≠ [] := by
  have hinv : GoodShape (genRun env net_probs sample batch_size fuel (genInit env e0)) := by
    refine genRun_inv GoodShape env net_probs sample batch_size
      (goodShape_genStep env net_probs sample batch_size) fuel _ ⟨?_, ?_⟩
    · intro ep hep
      simp [genInit] at hep
    · intro b hb
      simp [genInit] at hb
  intro b hb
  obtain ⟨hbne, hsteps⟩ := hinv.2 b hb
  have hrne : b.map Episode.reward ≠ [] := by simpa using hbne
  have hbound : (filter_batch b p).2.2.1 = np_percentile (b.map Episode.reward) p := by
    simp [filter_batch]
  obtain ⟨a, ha, c, hc, hac1, hac2⟩ := np_percentile_between hrne h0 h1
  obtain ⟨e, he, rfl⟩ := List.mem_map.mp hc
  have helite : e ∈ eliteOf (np_percentile (b.map Episode.reward) p) b :=
    List.mem_filter.mpr ⟨he, decide_eq_true hac2⟩
  have hobs : (filter_batch b p).1 =
      ((eliteOf (np_percentile (b.map Episode.reward) p) b).map
        fun e => e.steps.map EpisodeStep.observation).flatten := by
    simp [filter_batch, collectElite_eq]
  have hact : (filter_batch b p).2.1 =
      ((eliteOf (np_percentile (b.map Episode.reward) p) b).map
        fun e => e.steps.map EpisodeStep.action).flatten := by
    simp [filter_batch, collectElite_eq]
  refine ⟨hsteps, ⟨a, ha, hbound ▸ hac1⟩, ⟨e.reward, hc, hbound ▸ hac2⟩,
    ⟨e, he, hbound ▸ hac2⟩, ?_, ?_⟩
  · rw [hobs]
    intro hnil
    rw [List.flatten_eq_nil_iff] at hnil
    have hml := hnil _ (List.mem_map_of_mem _ helite)
    rw [List.map_eq_nil_iff] at hml
    exact hsteps e he hml
  · rw [hact]
    intro hnil
    rw [List.flatten_eq_nil_iff] at hnil
    have hml := hnil _ (List.mem_map_of_mem _ helite)
    rw [List.map_eq_nil_iff] at hml
    exact hsteps e he hml

/-- Invariant of the generator loop over a K-step environment: the
step counter of the environment equals the number of steps taken in
the current episode, the accumulated reward equals that count (one
reward unit per step), every closed episode has reward K and K steps,
and every yielded batch holds batch_size such episodes. -/
def KInv {ι Obs : Type} (K batch_size : ℕ) (s : GenState (ι × ℕ) Obs) : Prop :=
  s.envState.2 = s.episode_steps.length ∧
  s.episode_reward = (s.episode_steps.length : ℚ) ∧
  (∀ ep ∈ s.batch, ep.reward = (K : ℚ) ∧ ep.steps.length = K) ∧
  ∀ b ∈ s.emitted, b.length = batch_size ∧
    ∀ ep ∈ b, ep.reward = (K : ℚ) ∧ ep.steps.length = K

/-- The initial generator state over a K-step environment satisfies
the invariant. -/
theorem kInv_genInit {ι Obs : Type} (K batch_size : ℕ) (ro : ι → Obs × ι)
    (so : ι → ℕ → Obs × ι) (e0 : ι × ℕ) :
    KInv K batch_size (genInit (kStepEnv K ro so) e0) := by
  refine ⟨?_, ?_, ?_, ?_⟩ <;> simp [genInit, kStepEnv]

/-- One pass of the loop over a K-step environment preserves the
invariant. -/
theorem kInv_genStep {ι Obs : Type} (K batch_size : ℕ) (ro : ι → Obs × ι)
    (so : ι → ℕ → Obs × ι) (net_probs : Obs → List ℚ) (sample : List ℚ → ℕ)
    (s : GenState (ι × ℕ) Obs) (h : KInv K batch_size s) :
    KInv K batch_size (genStep (kStepEnv K ro so) net_probs sample batch_size s) := by
  obtain ⟨h1, h2, h3, h4⟩ := h
  simp only [genStep, kStepEnv]
  split
  next hdone =>
    have hd : s.envState.2 + 1 = K := by simpa using hdone
    split
    next hfull =>
      refine ⟨by simp, by simp, by simp, ?_⟩
      intro b hb
      simp only [List.mem_append, List.mem_singleton] at hb
      rcases hb with hb | hb
      · exact h4 b hb
      · subst hb
        refine ⟨by simpa using hfull, ?_⟩
        intro ep hep
        simp only [List.mem_append, List.mem_singleton] at hep
        rcases hep with hep | hep
        · exact h3 ep hep
        · subst hep
          constructor
          · simp only [h2, ← hd, h1]
            push_cast
            ring
          · simp [← hd, h1]
    next hfull =>
      refine ⟨by simp, by simp, ?_, h4⟩
      intro ep hep
      simp only [List.mem_append, List.mem_singleton] at hep
      rcases hep with hep | hep
      · exact h3 ep hep
      · subst hep
        constructor
        · simp only [h2, ← hd, h1]
          push_cast
          ring
        · simp [← hd, h1]
  next hdone =>
    refine ⟨?_, ?_, h3, h4⟩
    · simp [h1]
    · simp only [h2, List.length_append, List.length_singleton]
      push_cast
      ring

/-- C8.  Over any environment that terminates every episode after
exactly K steps with reward 1.0 per step, every batch emitted by the
generator contains exactly batch_size episodes, and every episode in
it has total reward K and exactly K steps. -/
theorem iterate_batches_kstep_batches {ι Obs : Type} (K batch_size fuel : ℕ)
    (ro : ι → Obs × ι) (so : ι → ℕ → Obs × ι) (net_probs : Obs → List ℚ)
    (sample : List ℚ → ℕ) (e0 : ι × ℕ) :
    ∀ b ∈ (genRun (kStepEnv K ro so) net_probs sample batch_size fuel
        (genInit (kStepEnv K ro so) e0)).emitted,
      b.length = batch_size ∧
      ∀ ep ∈ b, ep.reward = (K : ℚ) ∧ ep.steps.length = K := by
  have hinv : KInv K batch_size (genRun (kStepEnv K ro so) net_probs sample batch_size
      fuel (genInit (kStepEnv K ro so) e0)) :=
    genRun_inv (KInv K batch_size) (kStepEnv K ro so) net_probs sample batch_size
      (kInv_genStep K batch_size ro so net_probs sample) fuel _
      (kInv_genInit K batch_size ro so e0)
  exact hinv.2.2.2

/-- Witness for C8: a one-step environment with unit observations,
batch size 1 and fuel 1 emits exactly the batch holding one episode of
reward 1 with one step. -/
theorem iterate_batches_kstep_batches_witness :
    [(⟨1, [⟨(), 0⟩]⟩ : Episode Unit)] ∈
      (genRun (kStepEnv 1 (fun _ : Unit => ((), ())) (fun _ _ => ((), ())))
        (fun _ => [(1 : ℚ)]) (fun _ => 0) 1 1
        (genInit (kStepEnv 1 (fun _ : Unit => ((), ())) (fun _ _ => ((), ()))) ((), 0))).emitted ∧
    ([(⟨1, [⟨(), 0⟩]⟩ : Episode Unit)].length = 1 ∧
      ∀ ep ∈ [(⟨1, [⟨(), 0⟩]⟩ : Episode Unit)],
        ep.reward = ((1 : ℕ) : ℚ) ∧ ep.steps.length = 1) :=
  ⟨by norm_num [genRun, genStep, genInit, kStepEnv],
   iterate_batches_kstep_batches 1 1 1 (fun _ : Unit => ((), ())) (fun _ _ => ((), ()))
     (fun _ => [(1 : ℚ)]) (fun _ => 0) ((), 0) _
     (by norm_num [genRun, genStep, genInit, kStepEnv])⟩

/-- Witness for C10: an always-done environment with unit observations
emits the batch of one single-step episode with reward 1; at
percentile 70 its filter output is nonempty. -/
theorem generator_batches_filter_nonempty_witness :
    ((0 : ℚ) ≤ 70 ∧ (70 : ℚ) ≤ 100 ∧
      [(⟨1, [⟨(), 0⟩]⟩ : Episode Unit)] ∈
        (genRun (⟨fun _ => ((), ()), fun _ _ => ((), 1, true, ())⟩ : Env Unit Unit)
          (fun _ => [(1 : ℚ)]) (fun _ => 0) 1 1
          (genInit (⟨fun _ => ((), ()), fun _ _ => ((), 1, true, ())⟩ : Env Unit Unit)
            ())).emitted) ∧
    ((∀ ep ∈ [(⟨1, [⟨(), 0⟩]⟩ : Episode Unit)], ep.steps ≠ []) ∧
      (∃ a ∈ [(⟨1, [⟨(), 0⟩]⟩ : Episode Unit)].map Episode.reward,
        a ≤ (filter_batch [(⟨1, [⟨(), 0⟩]⟩ : Episode Unit)] 70).2.2.1) ∧
      (∃ c ∈ [(⟨1, [⟨(), 0⟩]⟩ : Episode Unit)].map Episode.reward,
        (filter_batch [(⟨1, [⟨(), 0⟩]⟩ : Episode Unit)] 70).2.2.1 ≤ c) ∧
      (∃ e ∈ [(⟨1, [⟨(), 0⟩]⟩ : Episode Unit)],
        (filter_batch [(⟨1, [⟨(), 0⟩]⟩ : Episode Unit)] 70).2.2.1 ≤ e.reward) ∧
      (filter_batch [(⟨1, [⟨(), 0⟩]⟩ : Episode Unit)] 70).1 ≠ [] ∧
      (filter_batch [(⟨1, [⟨(), 0⟩]⟩ : Episode Unit)] 70).2.1 ≠ []) :=
  ⟨⟨by norm_num, by norm_num, by norm_num [genRun, genStep, genInit]⟩,
   generator_batches_filter_nonempty
     (⟨fun _ => ((), ()), fun _ _ => ((), 1, true, ())⟩ : Env Unit Unit)
     (fun _ => [(1 : ℚ)]) (fun _ => 0) 1 1 () (by norm_num) (by norm_num) _
     (by norm_num [genRun, genStep, genInit])⟩

end CartPole
